import Mathlib

/-!
Shallow embedding of `maint/MultiStage2.py`, the multistage Unicode property
table builder: dense table construction, C type-width resolution, record
combination, record struct layout, two-stage block compression and the
block-size optimizer, together with correctness theorems about them.
-/

set_option autoImplicit false
set_option linter.unreachableTactic false
set_option linter.unnecessarySeqFocus false
set_option linter.unusedTactic false

/-- The constant `MAX_UNICODE = 0x110000` from the source. -/
def MAX_UNICODE : Nat := 0x110000

/-- One range assignment extracted from an input line of `read_table`:
start code point `char`, optional inclusive end `last` (absent when the
line names a single code point), and the value to store. -/
structure Assignment where
  char : Nat
  last : Option Nat
  value : Int
deriving DecidableEq

/-- The inner loop of `read_table`:
`for i in range(char, last + 1): table[i] = value`.  The parameter `i` is
the index of the first list cell; positions `start ≤ i ≤ last` receive
`value`, all others are kept. -/
def write_range (start last : Nat) (value : Int) : Nat → List Int → List Int
  | _, [] => []
  | i, v :: rest =>
      (if start ≤ i ∧ i ≤ last then value else v) :: write_range start last value (i + 1) rest

/-- The function `read_table` from the source, with the textual line parsing elided (it is
out of scope per the spec): the table starts as `[default_value] * MAX_UNICODE`
and each assignment overwrites the code points in `[char, last]` (with `last`
defaulting to `char`), in input order. -/
def read_table (assignments : List Assignment) (default_value : Int) : List Int :=
  assignments.foldl
    (fun table a => write_range a.char (a.last.getD a.char) a.value 0 table)
    (List.replicate MAX_UNICODE default_value)

/-- Python's `min(table)`; the source never applies it to an empty list. -/
def py_min : List Int → Int
  | [] => 0
  | x :: xs => xs.foldl min x

/-- Python's `max(table)`; the source never applies it to an empty list. -/
def py_max : List Int → Int
  | [] => 0
  | x :: xs => xs.foldl max x

/-- The `type_size` list of candidate C types from `get_type_size`. -/
def type_size : List (String × Nat) :=
  [("uschar", 1), ("pcre_uint16", 2), ("pcre_uint32", 4),
   ("signed char", 1), ("pcre_int16", 2), ("pcre_int32", 4)]

/-- The `limits` list from `get_type_size`. -/
def limits : List (Int × Int) :=
  [(0, 255), (0, 65535), (0, 4294967295),
   (-128, 127), (-32768, 32767), (-2147483648, 2147483647)]

/-- The `for num, (minlimit, maxlimit) in enumerate(limits)` search of
`get_type_size`: scan the candidates in order, paired with their types, and
return the first whose limits contain `[minval, maxval]`. -/
def find_fit (minval maxval : Int) : List ((Int × Int) × String × Nat) → Option (String × Nat)
  | [] => none
  | ((minlimit, maxlimit), ts) :: rest =>
      if minlimit ≤ minval ∧ maxval ≤ maxlimit then some ts else find_fit minval maxval rest

/-- The function `get_type_size` from the source: the smallest C type able to hold every
value of the table.  `none` models the raised `OverflowError` (Python also
errors on an empty table, via `min([])`). -/
def get_type_size (table : List Int) : Option (String × Nat) :=
  if table.isEmpty then none
  else find_fit (py_min table) (py_max table) (limits.zip type_size)

/-- The function `get_tables_size` from the source: `Σ size * len(table)` over the given
tables; `none` when `get_type_size` fails on one of them. -/
def get_tables_size (tables : List (List Int)) : Option Nat :=
  tables.foldl
    (fun acc table => acc.bind fun s => (get_type_size table).map fun ts => s + ts.2 * table.length)
    (some 0)

/-- Lookup in an association list, modelling Python dictionary `get` (keys
are unique in every use below, so the scan order is irrelevant). -/
def dictGet {α : Type} [DecidableEq α] (d : List (α × Nat)) (k : α) : Option Nat :=
  match d with
  | [] => none
  | (k₀, v) :: rest => if k = k₀ then some v else dictGet rest k

/-- The loop of `compress_table`.  `blocks` is the dictionary from block
content to its allocated offset, `stage1`/`stage2` are the accumulated output
tables and `table` is the remaining suffix of the input.  `block_size = 0`
cannot occur in the source (Python's `range` with step `0` raises); the guard
only serves termination. -/
def compress_aux (block_size : Nat) (blocks : List (List Int × Nat))
    (stage1 : List Nat) (stage2 : List Int) (table : List Int) : List Nat × List Int :=
  if table.isEmpty ∨ block_size = 0 then (stage1, stage2)
  else
    match dictGet blocks (table.take block_size) with
    | some start => compress_aux block_size blocks (stage1 ++ [start]) stage2 (table.drop block_size)
    | none =>
        compress_aux block_size
          (blocks ++ [(table.take block_size, stage2.length / block_size)])
          (stage1 ++ [stage2.length / block_size])
          (stage2 ++ table.take block_size) (table.drop block_size)
termination_by table.length
decreasing_by
  all_goals
    rcases table with _ | ⟨v, rest⟩
    · simp_all
    · simp only [List.length_drop, List.length_cons]
      simp at *
      omega

/-- The function `compress_table` from the source. -/
def compress_table (table : List Int) (block_size : Nat) : List Nat × List Int :=
  compress_aux block_size [] [] [] table

/-- The loop of `combine_tables`: assign each row the next fresh record id on
first sight (`i = records[t] = len(records)`), and append the id to `index`.
The dictionary is kept in insertion order. -/
def combineRows (records : List (List Int × Nat)) (index : List Nat) :
    List (List Int) → List Nat × List (List Int × Nat)
  | [] => (index, records)
  | t :: rest =>
    match dictGet records t with
    | some i => combineRows records (index ++ [i]) rest
    | none => combineRows (records ++ [(t, records.length)]) (index ++ [records.length]) rest

/-- Python's `zip(*tables)`: the list of per-position tuples (modelled as
lists), truncated at the shortest table. -/
def zipTables (tables : List (List Int)) : List (List Int) :=
  match tables with
  | [] => []
  | t :: ts =>
      (List.range ((ts.map List.length).foldl min t.length)).map
        fun j => (t :: ts).map fun tab => tab.getD j 0

/-- The function `combine_tables` from the source. -/
def combine_tables (tables : List (List Int)) : List Nat × List (List Int × Nat) :=
  combineRows [] [] (zipTables tables)

/-- Column extraction `map(lambda record: record[i], records)` used by
`get_record_size_struct`. -/
def column (records : List (List Int)) (i : Nat) : List Int :=
  records.map fun r => r.getD i 0

/-- One iteration of the field loop of `get_record_size_struct`: pad `size`
up with `(size + slice_size - 1) & -slice_size`, then add the field width. -/
def field_step (records : List (List Int)) (acc : Option Int) (i : Nat) : Option Int :=
  acc.bind fun size =>
    (get_type_size (column records i)).map fun ts =>
      Int.land (size + (ts.2 : Int) - 1) (-(ts.2 : Int)) + (ts.2 : Int)

/-- The function `get_record_size_struct` from the source (the generated C `struct` text is
elided; only the computed size is modelled).  `none` models the raised
exceptions (`records[0]` on an empty table, `OverflowError` from
`get_type_size`). -/
def get_record_size_struct (records : List (List Int)) : Option Int :=
  match records with
  | [] => none
  | r₀ :: _ =>
      ((List.range r₀.length).foldl (field_step records) (some 0)).bind fun size =>
        (get_type_size (column records 0)).map fun ts =>
          Int.land (size + (ts.2 : Int) - 1) (-(ts.2 : Int))

/-- Modelled from the spec's words for the Record Layout Planner: pad
`offset` up to the next multiple of `w` (the effect of
`(offset + width - 1) & ~(width - 1)` for the power-of-two widths in use),
expressed as arithmetic round-up.  Used only for the refinement statement. -/
def roundUpTo (offset w : Int) : Int := w * ((offset + w - 1) / w)

/-- Modelled from the spec's words: one field step of the record layout,
round the offset up to the field's width then add the width. -/
def spec_field_step (records : List (List Int)) (acc : Option Int) (i : Nat) : Option Int :=
  acc.bind fun size =>
    (get_type_size (column records i)).map fun ts =>
      roundUpTo size (ts.2 : Int) + (ts.2 : Int)

/-- Modelled from the spec's words: the record size obtained by walking the
fields in tuple order with `roundUpTo` padding, and finally padding the total
up to a multiple of the first field's resolved width. -/
def spec_record_size (records : List (List Int)) : Option Int :=
  match records with
  | [] => none
  | r₀ :: _ =>
      ((List.range r₀.length).foldl (spec_field_step records) (some 0)).bind fun size =>
        (get_type_size (column records 0)).map fun ts => roundUpTo size (ts.2 : Int)

/-- The list `[2 ** i for i in range(5, 10)]` of candidate block sizes. -/
def candidate_block_sizes : List Nat := (List.range' 5 5).map fun i => 2 ^ i

/-- The per-candidate score of the optimizer loop:
`len(records) * record_size + get_tables_size(stage1, stage2)`. -/
def total_size (records_len record_size : Nat) (table : List Int) (block_size : Nat) :
    Option Nat :=
  let st := compress_table table block_size
  (get_tables_size [st.1.map Int.ofNat, st.2]).map fun s => records_len * record_size + s

/-- The optimizer loop over the candidate block sizes, carrying
`(min_size, min_block_size)`.  `min_size` starts at `sys.maxint` and
`min_block_size` stays `none` until first updated; `none` overall models an
`OverflowError` escaping from `get_tables_size`. -/
def opt_loop (records_len record_size : Nat) (table : List Int) :
    List Nat → Nat × Option Nat → Option (Nat × Option Nat)
  | [], st => some st
  | bs :: rest, st =>
    match total_size records_len record_size table bs with
    | none => none
    | some size =>
        if size < st.1 then opt_loop records_len record_size table rest (size, some bs)
        else opt_loop records_len record_size table rest st

/-- The block-size search of the source's main program: try every candidate
in order and keep the first one achieving the strictly smallest `size`;
returns `(min_block_size, min_size)`. -/
def find_block_size (records_len record_size : Nat) (table : List Int) : Option (Nat × Nat) :=
  (opt_loop records_len record_size table candidate_block_sizes (9223372036854775807, none)).bind
    fun st => st.2.map fun b => (b, st.1)

/-- Position of the first occurrence of `x` in a list (the length of the
list when `x` is absent). -/
def posOf {α : Type} [DecidableEq α] (x : α) : List α → Nat
  | [] => 0
  | y :: ys => if x = y then 0 else posOf x ys + 1

/-- Append to `seen` the first occurrences of the yet-unseen elements of a
list, in order of first occurrence. -/
def addDistinct {α : Type} [DecidableEq α] (seen : List α) : List α → List α
  | [] => seen
  | x :: xs => if x ∈ seen then addDistinct seen xs else addDistinct (seen ++ [x]) xs

/-- The id stream produced by first-seen dictionary numbering relative to the
already-seen keys `seen`. -/
def specIndex {α : Type} [DecidableEq α] (seen : List α) : List α → List Nat
  | [] => []
  | x :: xs =>
      if x ∈ seen then posOf x seen :: specIndex seen xs
      else seen.length :: specIndex (seen ++ [x]) xs

/-- Pair each element of a list with its position, starting from `n`. -/
def withIds {α : Type} (l : List α) (n : Nat) : List (α × Nat) :=
  match l with
  | [] => []
  | x :: xs => (x, n) :: withIds xs (n + 1)

/-- The input cut into consecutive `block_size`-sized chunks. -/
def chunksOf (block_size : Nat) (l : List Int) : List (List Int) :=
  if l.isEmpty ∨ block_size = 0 then []
  else l.take block_size :: chunksOf block_size (l.drop block_size)
termination_by l.length
decreasing_by
  rcases l with _ | ⟨v, rest⟩
  · simp_all
  · simp only [List.length_drop, List.length_cons]
    simp at *
    omega

/-- The value of the last assignment covering code point `c`, or the default
value when no assignment covers it. -/
def last_covering (assignments : List Assignment) (d : Int) (c : Nat) : Int :=
  match assignments.reverse.find? (fun a => decide (a.char ≤ c ∧ c ≤ a.last.getD a.char)) with
  | some a => a.value
  | none => d

/-- The emission order of `print_records`: the dictionary items sorted by
record id (`records.sort(None, lambda x: x[1])`). -/
def print_records_order (records : List (List Int × Nat)) : List (List Int × Nat) :=
  records.mergeSort fun x y => x.2 ≤ y.2

section DedupSpec

variable {α : Type} [DecidableEq α]

theorem posOf_lt_length {x : α} {l : List α} (h : x ∈ l) : posOf x l < l.length := by
  induction l with
  | nil => cases h
  | cons y ys ih =>
    by_cases hxy : x = y
    · simp [posOf, hxy]
    · have h' : x ∈ ys := by
        rcases List.mem_cons.mp h with h₁ | h₁
        · exact absurd h₁ hxy
        · exact h₁
      simp only [posOf, if_neg hxy, List.length_cons]
      exact Nat.succ_lt_succ (ih h')

theorem posOf_getD {x : α} {l : List α} (h : x ∈ l) (d : α) : l.getD (posOf x l) d = x := by
  induction l with
  | nil => cases h
  | cons y ys ih =>
    by_cases hxy : x = y
    · simp [posOf, hxy]
    · have h' : x ∈ ys := by
        rcases List.mem_cons.mp h with h₁ | h₁
        · exact absurd h₁ hxy
        · exact h₁
      simpa [posOf, if_neg hxy] using ih h'

theorem posOf_append_left {x : α} {l₁ : List α} (h : x ∈ l₁) (l₂ : List α) :
    posOf x (l₁ ++ l₂) = posOf x l₁ := by
  induction l₁ with
  | nil => cases h
  | cons y ys ih =>
    by_cases hxy : x = y
    · simp [posOf, hxy]
    · have h' : x ∈ ys := by
        rcases List.mem_cons.mp h with h₁ | h₁
        · exact absurd h₁ hxy
        · exact h₁
      simp [posOf, if_neg hxy, ih h']

theorem posOf_append_right {x : α} {l₁ : List α} (h : x ∉ l₁) (l₂ : List α) :
    posOf x (l₁ ++ l₂) = l₁.length + posOf x l₂ := by
  induction l₁ with
  | nil => simp [posOf]
  | cons y ys ih =>
    have hxy : x ≠ y := fun hx => h (hx ▸ List.mem_cons_self y ys)
    have hys : x ∉ ys := fun hx => h (List.mem_cons_of_mem y hx)
    rw [List.cons_append, posOf, if_neg hxy, ih hys, List.length_cons]
    omega

theorem posOf_getD_of_nodup {l : List α} (hnd : l.Nodup) {i : Nat} (hi : i < l.length) (d : α) :
    posOf (l.getD i d) l = i := by
  induction l generalizing i with
  | nil => simp at hi
  | cons y ys ih =>
    rcases List.nodup_cons.mp hnd with ⟨hy, hys⟩
    cases i with
    | zero => simp [posOf]
    | succ i =>
      have hi' : i < ys.length := by simpa using hi
      have hmem : ys.getD i d ∈ ys := by
        rw [List.getD_eq_getElem ys d hi']
        exact List.getElem_mem hi'
      have hne : ys.getD i d ≠ y := fun hx => hy (hx ▸ hmem)
      rw [List.getD_cons_succ]
      show (if ys.getD i d = y then 0 else posOf (ys.getD i d) ys + 1) = i + 1
      rw [if_neg hne, ih hys hi']

theorem addDistinct_eq_append (seen l : List α) : ∃ t, addDistinct seen l = seen ++ t := by
  induction l generalizing seen with
  | nil => exact ⟨[], by simp [addDistinct]⟩
  | cons x xs ih =>
    by_cases hx : x ∈ seen
    · simpa [addDistinct, hx] using ih seen
    · rcases ih (seen ++ [x]) with ⟨t, ht⟩
      exact ⟨[x] ++ t, by simp [addDistinct, hx, ht]⟩

theorem mem_addDistinct (seen l : List α) (x : α) :
    x ∈ addDistinct seen l ↔ x ∈ seen ∨ x ∈ l := by
  induction l generalizing seen with
  | nil => simp [addDistinct]
  | cons y ys ih =>
    by_cases hy : y ∈ seen
    · rw [addDistinct, if_pos hy, ih]
      constructor
      · rintro (h | h)
        · exact Or.inl h
        · exact Or.inr (List.mem_cons_of_mem y h)
      · rintro (h | h)
        · exact Or.inl h
        · rcases List.mem_cons.mp h with rfl | h
          · exact Or.inl hy
          · exact Or.inr h
    · rw [addDistinct, if_neg hy, ih]
      simp only [List.mem_append, List.mem_singleton, List.mem_cons]
      tauto

theorem addDistinct_nodup {seen : List α} (h : seen.Nodup) (l : List α) :
    (addDistinct seen l).Nodup := by
  induction l generalizing seen with
  | nil => simpa [addDistinct] using h
  | cons x xs ih =>
    by_cases hx : x ∈ seen
    · rw [addDistinct, if_pos hx]
      exact ih h
    · rw [addDistinct, if_neg hx]
      refine ih ?_
      simp [List.nodup_append, h, hx]

theorem specIndex_length (seen l : List α) : (specIndex seen l).length = l.length := by
  induction l generalizing seen with
  | nil => simp [specIndex]
  | cons x xs ih =>
    by_cases hx : x ∈ seen <;> simp [specIndex, hx, ih]

theorem specIndex_getD (seen : List α) {l : List α} {k : Nat} (hk : k < l.length) (d : α) :
    (specIndex seen l).getD k 0 = posOf (l.getD k d) (addDistinct seen l) := by
  induction l generalizing seen k with
  | nil => simp at hk
  | cons x xs ih =>
    cases k with
    | zero =>
      by_cases hx : x ∈ seen
      · rcases addDistinct_eq_append seen xs with ⟨t, ht⟩
        simp [specIndex, addDistinct, hx, ht, posOf_append_left hx]
      · rcases addDistinct_eq_append (seen ++ [x]) xs with ⟨t, ht⟩
        have hpos : posOf x (seen ++ x :: t) = seen.length := by
          rw [posOf_append_right hx]
          simp [posOf]
        simp [specIndex, addDistinct, hx, ht, hpos]
    | succ k =>
      have hk' : k < xs.length := by simpa using hk
      by_cases hx : x ∈ seen
      · rw [specIndex, if_pos hx, addDistinct, if_pos hx]
        simp only [List.getD_cons_succ]
        exact ih seen hk'
      · rw [specIndex, if_neg hx, addDistinct, if_neg hx]
        simp only [List.getD_cons_succ]
        exact ih (seen ++ [x]) hk'

theorem dictGet_withIds (l : List α) (n : Nat) (x : α) :
    dictGet (withIds l n) x = if x ∈ l then some (n + posOf x l) else none := by
  induction l generalizing n with
  | nil => simp [withIds, dictGet]
  | cons y ys ih =>
    by_cases hxy : x = y
    · simp [withIds, dictGet, hxy, posOf]
    · rw [withIds, dictGet, if_neg hxy, ih]
      by_cases hx : x ∈ ys
      · have hxc : x ∈ y :: ys := List.mem_cons_of_mem y hx
        simp only [if_pos hx, if_pos hxc, posOf, if_neg hxy]
        congr 1
        omega
      · have hxc : x ∉ y :: ys := by simp [hxy, hx]
        simp [hx, hxc]

end DedupSpec

section WithIds

variable {α : Type}

theorem withIds_length (l : List α) (n : Nat) : (withIds l n).length = l.length := by
  induction l generalizing n with
  | nil => simp [withIds]
  | cons x xs ih => simp [withIds, ih]

theorem withIds_map_snd (l : List α) (n : Nat) :
    (withIds l n).map Prod.snd = List.range' n l.length := by
  induction l generalizing n with
  | nil => simp [withIds]
  | cons x xs ih => simp [withIds, ih, List.range'_succ]

theorem withIds_append (l₁ l₂ : List α) (n : Nat) :
    withIds (l₁ ++ l₂) n = withIds l₁ n ++ withIds l₂ (n + l₁.length) := by
  induction l₁ generalizing n with
  | nil => simp [withIds]
  | cons x xs ih =>
    have h₁ : n + 1 + xs.length = n + (xs.length + 1) := by omega
    show (x, n) :: withIds (xs ++ l₂) (n + 1) =
      (x, n) :: (withIds xs (n + 1) ++ withIds l₂ (n + (xs.length + 1)))
    rw [ih, h₁]

end WithIds

theorem combineRows_eq (rest : List (List Int)) :
    ∀ (seen : List (List Int)) (index : List Nat),
      combineRows (withIds seen 0) index rest =
        (index ++ specIndex seen rest, withIds (addDistinct seen rest) 0) := by
  induction rest with
  | nil => intro seen index; simp [combineRows, specIndex, addDistinct]
  | cons t rest ih =>
    intro seen index
    by_cases ht : t ∈ seen
    · have hd : dictGet (withIds seen 0) t = some (posOf t seen) := by
        rw [dictGet_withIds, if_pos ht, Nat.zero_add]
      simp only [combineRows, hd]
      rw [ih, specIndex, if_pos ht, addDistinct, if_pos ht]
      simp
    · have hd : dictGet (withIds seen 0) t = none := by
        rw [dictGet_withIds, if_neg ht]
      simp only [combineRows, hd, withIds_length]
      have hrec : withIds seen 0 ++ [(t, seen.length)] = withIds (seen ++ [t]) 0 := by
        rw [withIds_append]
        simp [withIds]
      rw [hrec, ih, specIndex, if_neg ht, addDistinct, if_neg ht]
      simp

theorem foldl_min_const {ns : List Nat} {a : Nat} (h : ∀ n ∈ ns, n = a) : ns.foldl min a = a := by
  induction ns with
  | nil => rfl
  | cons n ns ih =>
    have hn : n = a := h n (List.mem_cons_self n ns)
    rw [List.foldl_cons, hn, Nat.min_self]
    exact ih fun m hm => h m (List.mem_cons_of_mem n hm)

theorem getD_mem {β : Type} {l : List β} {p : Nat} (hp : p < l.length) (d : β) :
    l.getD p d ∈ l := by
  rw [List.getD_eq_getElem l d hp]
  exact List.getElem_mem hp

theorem zipTables_length {tables : List (List Int)} {L : Nat} (hne : tables ≠ [])
    (hlen : ∀ t ∈ tables, t.length = L) : (zipTables tables).length = L := by
  rcases tables with _ | ⟨t, ts⟩
  · exact absurd rfl hne
  · have hts : ∀ n ∈ ts.map List.length, n = L := by
      intro n hn
      rcases List.mem_map.mp hn with ⟨u, hu, rfl⟩
      exact hlen u (List.mem_cons_of_mem t hu)
    have hfold : (ts.map List.length).foldl min t.length = L := by
      rw [hlen t (List.mem_cons_self t ts)]
      exact foldl_min_const hts
    simp [zipTables, hfold]

theorem zipTables_getD {tables : List (List Int)} {L : Nat} (hne : tables ≠ [])
    (hlen : ∀ t ∈ tables, t.length = L) {p : Nat} (hp : p < L) :
    (zipTables tables).getD p [] = tables.map fun t => t.getD p 0 := by
  rcases tables with _ | ⟨t, ts⟩
  · exact absurd rfl hne
  · have hts : ∀ n ∈ ts.map List.length, n = L := by
      intro n hn
      rcases List.mem_map.mp hn with ⟨u, hu, rfl⟩
      exact hlen u (List.mem_cons_of_mem t hu)
    have hfold : (ts.map List.length).foldl min t.length = L := by
      rw [hlen t (List.mem_cons_self t ts)]
      exact foldl_min_const hts
    rw [zipTables, hfold]
    have hlt : p < ((List.range L).map fun j => (t :: ts).map fun tab => tab.getD j 0).length := by
      simpa using hp
    rw [List.getD_eq_getElem _ _ hlt]
    simp

/-- The fully reduced form of `combine_tables`: the index is the first-seen id
stream of the rows and the record dictionary pairs the distinct rows with
`0, 1, 2, …` in first-seen order. -/
theorem combine_tables_eq (tables : List (List Int)) :
    combine_tables tables =
      (specIndex [] (zipTables tables),
        withIds (addDistinct [] (zipTables tables)) 0) := by
  have h := combineRows_eq (zipTables tables) [] []
  simpa [combine_tables, withIds] using h

/-- C2: deduplication soundness of the Record Combiner.  For `N` equal-length
input arrays, `combine_tables` gives two positions the same record id exactly
when their `N`-tuples of values agree in every dimension, every id in the
index is below the number of records, every record id is referenced by some
position, and the record ids are the dense range `[0, |records|)`. -/
theorem combine_tables_dedup_sound (tables : List (List Int)) (L : Nat)
    (hne : tables ≠ []) (hlen : ∀ t ∈ tables, t.length = L) :
    (combine_tables tables).1.length = L ∧
    (∀ p₁ p₂, p₁ < L → p₂ < L →
      ((combine_tables tables).1.getD p₁ 0 = (combine_tables tables).1.getD p₂ 0 ↔
        tables.map (fun t => t.getD p₁ 0) = tables.map fun t => t.getD p₂ 0)) ∧
    (∀ p, p < L → (combine_tables tables).1.getD p 0 < (combine_tables tables).2.length) ∧
    (∀ id, id < (combine_tables tables).2.length →
      ∃ p, p < L ∧ (combine_tables tables).1.getD p 0 = id) ∧
    (combine_tables tables).2.map Prod.snd = List.range (combine_tables tables).2.length := by
  have hrowlen : (zipTables tables).length = L := zipTables_length hne hlen
  have hcomb := combine_tables_eq tables
  set rows := zipTables tables with hrows
  set D := addDistinct [] rows with hD
  have hDnodup : D.Nodup := addDistinct_nodup List.nodup_nil rows
  have hmemD : ∀ x : List Int, x ∈ D ↔ x ∈ rows := by
    intro x
    rw [hD, mem_addDistinct]
    simp
  have hidx : ∀ p, p < L → (combine_tables tables).1.getD p 0 = posOf (rows.getD p []) D := by
    intro p hp
    rw [hcomb]
    exact specIndex_getD [] (hrowlen ▸ hp) []
  have hreclen : (combine_tables tables).2.length = D.length := by
    rw [hcomb]
    exact withIds_length D 0
  have hrowmem : ∀ p, p < L → rows.getD p [] ∈ D := by
    intro p hp
    exact (hmemD _).mpr (getD_mem (hrowlen ▸ hp) [])
  refine ⟨?_, ?_, ?_, ?_, ?_⟩
  · rw [hcomb]
    rw [specIndex_length, hrowlen]
  · intro p₁ p₂ hp₁ hp₂
    rw [hidx p₁ hp₁, hidx p₂ hp₂, ← zipTables_getD hne hlen hp₁, ← zipTables_getD hne hlen hp₂]
    constructor
    · intro h
      have h₁ := posOf_getD (hrowmem p₁ hp₁) []
      have h₂ := posOf_getD (hrowmem p₂ hp₂) []
      rw [← h₁, ← h₂, h]
    · intro h
      rw [h]
  · intro p hp
    rw [hidx p hp, hreclen]
    exact posOf_lt_length (hrowmem p hp)
  · intro id hid
    rw [hreclen] at hid
    have hmem : D.getD id [] ∈ rows := (hmemD _).mp (getD_mem hid [])
    rcases List.getElem_of_mem hmem with ⟨p, hp, hpeq⟩
    refine ⟨p, hrowlen ▸ hp, ?_⟩
    rw [hidx p (hrowlen ▸ hp), List.getD_eq_getElem rows [] hp, hpeq]
    exact posOf_getD_of_nodup hDnodup hid []
  · rw [hcomb]
    show (withIds D 0).map Prod.snd = List.range (withIds D 0).length
    rw [withIds_map_snd, withIds_length, List.range_eq_range']

/-- Witness for C2 at a concrete input. -/
theorem combine_tables_dedup_sound_witness :
    ([[5, 5, 5, 7], [1, 1, 2, 1]] : List (List Int)) ≠ [] ∧
    (∀ t ∈ ([[5, 5, 5, 7], [1, 1, 2, 1]] : List (List Int)), t.length = 4) ∧
    ((combine_tables [[5, 5, 5, 7], [1, 1, 2, 1]]).1.length = 4 ∧
      (∀ p₁ p₂, p₁ < 4 → p₂ < 4 →
        ((combine_tables [[5, 5, 5, 7], [1, 1, 2, 1]]).1.getD p₁ 0 =
            (combine_tables [[5, 5, 5, 7], [1, 1, 2, 1]]).1.getD p₂ 0 ↔
          ([[5, 5, 5, 7], [1, 1, 2, 1]] : List (List Int)).map (fun t => t.getD p₁ 0) =
            ([[5, 5, 5, 7], [1, 1, 2, 1]] : List (List Int)).map fun t => t.getD p₂ 0)) ∧
      (∀ p, p < 4 → (combine_tables [[5, 5, 5, 7], [1, 1, 2, 1]]).1.getD p 0 <
        (combine_tables [[5, 5, 5, 7], [1, 1, 2, 1]]).2.length) ∧
      (∀ id, id < (combine_tables [[5, 5, 5, 7], [1, 1, 2, 1]]).2.length →
        ∃ p, p < 4 ∧ (combine_tables [[5, 5, 5, 7], [1, 1, 2, 1]]).1.getD p 0 = id) ∧
      (combine_tables [[5, 5, 5, 7], [1, 1, 2, 1]]).2.map Prod.snd =
        List.range (combine_tables [[5, 5, 5, 7], [1, 1, 2, 1]]).2.length) :=
  ⟨by decide, by decide,
    combine_tables_dedup_sound [[5, 5, 5, 7], [1, 1, 2, 1]] 4 (by decide) (by decide)⟩

theorem foldl_min_le_acc (xs : List Int) (a : Int) : xs.foldl min a ≤ a := by
  induction xs generalizing a with
  | nil => exact le_refl a
  | cons y ys ih => exact le_trans (ih (min a y)) (min_le_left a y)

theorem foldl_min_le_mem {xs : List Int} {v : Int} (hv : v ∈ xs) (a : Int) :
    xs.foldl min a ≤ v := by
  induction xs generalizing a with
  | nil => cases hv
  | cons y ys ih =>
    rcases List.mem_cons.mp hv with rfl | hv'
    · exact le_trans (foldl_min_le_acc ys (min a v)) (min_le_right a v)
    · exact ih hv' (min a y)

theorem foldl_min_mem (xs : List Int) (a : Int) :
    xs.foldl min a = a ∨ xs.foldl min a ∈ xs := by
  induction xs generalizing a with
  | nil => exact Or.inl rfl
  | cons y ys ih =>
    rcases ih (min a y) with h | h
    · rcases min_choice a y with hm | hm
      · exact Or.inl (by rw [List.foldl_cons, h, hm])
      · exact Or.inr (by rw [List.foldl_cons, h, hm]; exact List.mem_cons_self y ys)
    · exact Or.inr (List.mem_cons_of_mem y h)

theorem foldl_max_acc_le (xs : List Int) (a : Int) : a ≤ xs.foldl max a := by
  induction xs generalizing a with
  | nil => exact le_refl a
  | cons y ys ih => exact le_trans (le_max_left a y) (ih (max a y))

theorem foldl_max_mem_le {xs : List Int} {v : Int} (hv : v ∈ xs) (a : Int) :
    v ≤ xs.foldl max a := by
  induction xs generalizing a with
  | nil => cases hv
  | cons y ys ih =>
    rcases List.mem_cons.mp hv with rfl | hv'
    · exact le_trans (le_max_right a v) (foldl_max_acc_le ys (max a v))
    · exact ih hv' (max a y)

theorem foldl_max_mem (xs : List Int) (a : Int) :
    xs.foldl max a = a ∨ xs.foldl max a ∈ xs := by
  induction xs generalizing a with
  | nil => exact Or.inl rfl
  | cons y ys ih =>
    rcases ih (max a y) with h | h
    · rcases max_choice a y with hm | hm
      · exact Or.inl (by rw [List.foldl_cons, h, hm])
      · exact Or.inr (by rw [List.foldl_cons, h, hm]; exact List.mem_cons_self y ys)
    · exact Or.inr (List.mem_cons_of_mem y h)

theorem py_min_le {t : List Int} {v : Int} (hv : v ∈ t) : py_min t ≤ v := by
  rcases t with _ | ⟨x, xs⟩
  · cases hv
  · rcases List.mem_cons.mp hv with rfl | hv'
    · exact foldl_min_le_acc xs v
    · exact foldl_min_le_mem hv' x

theorem le_py_max {t : List Int} {v : Int} (hv : v ∈ t) : v ≤ py_max t := by
  rcases t with _ | ⟨x, xs⟩
  · cases hv
  · rcases List.mem_cons.mp hv with rfl | hv'
    · exact foldl_max_acc_le xs v
    · exact foldl_max_mem_le hv' x

theorem py_min_mem {t : List Int} (h : t ≠ []) : py_min t ∈ t := by
  rcases t with _ | ⟨x, xs⟩
  · exact absurd rfl h
  · rcases foldl_min_mem xs x with h₁ | h₁
    · rw [py_min, h₁]; exact List.mem_cons_self x xs
    · exact List.mem_cons_of_mem x h₁

theorem py_max_mem {t : List Int} (h : t ≠ []) : py_max t ∈ t := by
  rcases t with _ | ⟨x, xs⟩
  · exact absurd rfl h
  · rcases foldl_max_mem xs x with h₁ | h₁
    · rw [py_max, h₁]; exact List.mem_cons_self x xs
    · exact List.mem_cons_of_mem x h₁

theorem py_min_le_py_max {t : List Int} (h : t ≠ []) : py_min t ≤ py_max t :=
  le_py_max (py_min_mem h)

theorem get_type_size_eq_find_fit {t : List Int} (h : t ≠ []) :
    get_type_size t = find_fit (py_min t) (py_max t)
      [((0, 255), ("uschar", 1)), ((0, 65535), ("pcre_uint16", 2)),
       ((0, 4294967295), ("pcre_uint32", 4)), ((-128, 127), ("signed char", 1)),
       ((-32768, 32767), ("pcre_int16", 2)), ((-2147483648, 2147483647), ("pcre_int32", 4))] := by
  rcases t with _ | ⟨x, xs⟩
  · exact absurd rfl h
  · rw [get_type_size, if_neg (by simp)]
    rfl

/-- C4: for a non-empty array, `get_type_size` fails (the `OverflowError`
raise, modelled as `none`) exactly when no candidate covers the value range:
the minimum is below `-2147483648`, the maximum exceeds `4294967295`, or a
negative minimum is mixed with a maximum above `2147483647`; otherwise it
returns normally. -/
theorem get_type_size_overflow_iff (t : List Int) (h : t ≠ []) :
    get_type_size t = none ↔
      py_min t < -2147483648 ∨ 4294967295 < py_max t ∨
        (py_min t < 0 ∧ 2147483647 < py_max t) := by
  have hle : py_min t ≤ py_max t := py_min_le_py_max h
  rw [get_type_size_eq_find_fit h]
  simp only [find_fit]
  split_ifs <;> simp_all <;> omega

/-- Witness for C4 at a concrete input. -/
theorem get_type_size_overflow_iff_witness :
    ([(70000 : Int)] ≠ ([] : List Int)) ∧
    (get_type_size [70000] = none ↔
      py_min [70000] < -2147483648 ∨ 4294967295 < py_max [70000] ∨
        (py_min [70000] < 0 ∧ 2147483647 < py_max [70000])) :=
  ⟨by decide, get_type_size_overflow_iff [70000] (by decide)⟩

/-- C3 counterexample: the array `[-5, 4294967296]` contains `-5`, yet
`get_type_size` resolves it to no type at all — it raises the overflow error
instead of returning a signed type, so "any array containing `-5` resolves
to a signed type" fails as stated. -/
theorem get_type_size_neg_five_counterexample :
    (-5 : Int) ∈ ([-5, 4294967296] : List Int) ∧
      get_type_size [-5, 4294967296] = none := by decide

/-- C3 (amended): for a non-empty array, `get_type_size` returns the first
candidate of the fixed ordered list (unsigned 8/16/32-bit then signed
8/16/32-bit) whose limits contain both the minimum and the maximum element;
an array with all values in `[0, 130]` resolves to the 1-byte unsigned type;
and an array containing `-5` resolves to a signed type whenever
`get_type_size` returns a type at all. -/
theorem get_type_size_first_fit (t : List Int) (h : t ≠ []) :
    ((0 ≤ py_min t ∧ py_max t ≤ 255) → get_type_size t = some ("uschar", 1)) ∧
    (¬(0 ≤ py_min t ∧ py_max t ≤ 255) → (0 ≤ py_min t ∧ py_max t ≤ 65535) →
      get_type_size t = some ("pcre_uint16", 2)) ∧
    (¬(0 ≤ py_min t ∧ py_max t ≤ 65535) → (0 ≤ py_min t ∧ py_max t ≤ 4294967295) →
      get_type_size t = some ("pcre_uint32", 4)) ∧
    (¬(0 ≤ py_min t ∧ py_max t ≤ 4294967295) → (-128 ≤ py_min t ∧ py_max t ≤ 127) →
      get_type_size t = some ("signed char", 1)) ∧
    (¬(0 ≤ py_min t ∧ py_max t ≤ 4294967295) → ¬(-128 ≤ py_min t ∧ py_max t ≤ 127) →
      (-32768 ≤ py_min t ∧ py_max t ≤ 32767) → get_type_size t = some ("pcre_int16", 2)) ∧
    (¬(0 ≤ py_min t ∧ py_max t ≤ 4294967295) → ¬(-32768 ≤ py_min t ∧ py_max t ≤ 32767) →
      (-2147483648 ≤ py_min t ∧ py_max t ≤ 2147483647) →
      get_type_size t = some ("pcre_int32", 4)) ∧
    ((∀ v ∈ t, 0 ≤ v ∧ v ≤ 130) → get_type_size t = some ("uschar", 1)) ∧
    ((-5 : Int) ∈ t → ∀ s w, get_type_size t = some (s, w) →
      s = "signed char" ∨ s = "pcre_int16" ∨ s = "pcre_int32") := by
  refine ⟨?_, ?_, ?_, ?_, ?_, ?_, ?_, ?_⟩
  · intro hfit
    rw [get_type_size_eq_find_fit h]
    simp only [find_fit]
    split_ifs <;> first | rfl | (exfalso; omega)
  · intro hnot hfit
    rw [get_type_size_eq_find_fit h]
    simp only [find_fit]
    split_ifs <;> first | rfl | (exfalso; omega)
  · intro hnot hfit
    rw [get_type_size_eq_find_fit h]
    simp only [find_fit]
    split_ifs <;> first | rfl | (exfalso; omega)
  · intro hnot hfit
    rw [get_type_size_eq_find_fit h]
    simp only [find_fit]
    split_ifs <;> first | rfl | (exfalso; omega)
  · intro hnot₁ hnot₂ hfit
    rw [get_type_size_eq_find_fit h]
    simp only [find_fit]
    split_ifs <;> first | rfl | (exfalso; omega)
  · intro hnot₁ hnot₂ hfit
    rw [get_type_size_eq_find_fit h]
    simp only [find_fit]
    split_ifs <;> first | rfl | (exfalso; omega)
  · intro hv
    have h₁ := (hv _ (py_min_mem h)).1
    have h₂ := (hv _ (py_max_mem h)).2
    rw [get_type_size_eq_find_fit h]
    simp only [find_fit]
    split_ifs <;> first | rfl | (exfalso; omega)
  · intro hm s w heq
    have hmin : py_min t ≤ -5 := py_min_le hm
    rw [get_type_size_eq_find_fit h] at heq
    simp only [find_fit] at heq
    split_ifs at heq with h₁ h₂ h₃ h₄ h₅ h₆
    · exact absurd h₁.1 (by omega)
    · exact absurd h₂.1 (by omega)
    · exact absurd h₃.1 (by omega)
    · simp only [Option.some.injEq, Prod.mk.injEq] at heq
      exact Or.inl heq.1.symm
    · simp only [Option.some.injEq, Prod.mk.injEq] at heq
      exact Or.inr (Or.inl heq.1.symm)
    · simp only [Option.some.injEq, Prod.mk.injEq] at heq
      exact Or.inr (Or.inr heq.1.symm)

/-- Witness for C3 (amended) at a concrete input. -/
theorem get_type_size_first_fit_witness :
    (([-5, 100] : List Int) ≠ []) ∧
    (((0 ≤ py_min [-5, 100] ∧ py_max [-5, 100] ≤ 255) →
        get_type_size [-5, 100] = some ("uschar", 1)) ∧
      (¬(0 ≤ py_min [-5, 100] ∧ py_max [-5, 100] ≤ 255) →
        (0 ≤ py_min [-5, 100] ∧ py_max [-5, 100] ≤ 65535) →
        get_type_size [-5, 100] = some ("pcre_uint16", 2)) ∧
      (¬(0 ≤ py_min [-5, 100] ∧ py_max [-5, 100] ≤ 65535) →
        (0 ≤ py_min [-5, 100] ∧ py_max [-5, 100] ≤ 4294967295) →
        get_type_size [-5, 100] = some ("pcre_uint32", 4)) ∧
      (¬(0 ≤ py_min [-5, 100] ∧ py_max [-5, 100] ≤ 4294967295) →
        (-128 ≤ py_min [-5, 100] ∧ py_max [-5, 100] ≤ 127) →
        get_type_size [-5, 100] = some ("signed char", 1)) ∧
      (¬(0 ≤ py_min [-5, 100] ∧ py_max [-5, 100] ≤ 4294967295) →
        ¬(-128 ≤ py_min [-5, 100] ∧ py_max [-5, 100] ≤ 127) →
        (-32768 ≤ py_min [-5, 100] ∧ py_max [-5, 100] ≤ 32767) →
        get_type_size [-5, 100] = some ("pcre_int16", 2)) ∧
      (¬(0 ≤ py_min [-5, 100] ∧ py_max [-5, 100] ≤ 4294967295) →
        ¬(-32768 ≤ py_min [-5, 100] ∧ py_max [-5, 100] ≤ 32767) →
        (-2147483648 ≤ py_min [-5, 100] ∧ py_max [-5, 100] ≤ 2147483647) →
        get_type_size [-5, 100] = some ("pcre_int32", 4)) ∧
      ((∀ v ∈ ([-5, 100] : List Int), 0 ≤ v ∧ v ≤ 130) →
        get_type_size [-5, 100] = some ("uschar", 1)) ∧
      ((-5 : Int) ∈ ([-5, 100] : List Int) → ∀ s w, get_type_size [-5, 100] = some (s, w) →
        s = "signed char" ∨ s = "pcre_int16" ∨ s = "pcre_int32")) :=
  ⟨by decide, get_type_size_first_fit [-5, 100] (by decide)⟩

theorem write_range_length (s l : Nat) (v : Int) (i : Nat) (t : List Int) :
    (write_range s l v i t).length = t.length := by
  induction t generalizing i with
  | nil => rfl
  | cons x rest ih => simp [write_range, ih]

theorem write_range_getD (s l : Nat) (v : Int) (i k : Nat) (t : List Int) (hk : k < t.length) :
    (write_range s l v i t).getD k 0 =
      if s ≤ i + k ∧ i + k ≤ l then v else t.getD k 0 := by
  induction t generalizing i k with
  | nil => simp at hk
  | cons x rest ih =>
    cases k with
    | zero => simp [write_range]
    | succ k =>
      have hk' : k < rest.length := by simpa using hk
      have harith : i + 1 + k = i + (k + 1) := by omega
      rw [write_range, List.getD_cons_succ, List.getD_cons_succ, ih (i + 1) k hk', harith]

theorem foldl_write_length (as : List Assignment) (t : List Int) :
    (as.foldl (fun table a => write_range a.char (a.last.getD a.char) a.value 0 table) t).length =
      t.length := by
  induction as generalizing t with
  | nil => rfl
  | cons a as ih => rw [List.foldl_cons, ih, write_range_length]

theorem read_table_length (as : List Assignment) (d : Int) :
    (read_table as d).length = MAX_UNICODE := by
  rw [read_table, foldl_write_length, List.length_replicate]

theorem foldl_write_getD (as : List Assignment) (t : List Int) (c : Nat) (hc : c < t.length) :
    (as.foldl (fun table a => write_range a.char (a.last.getD a.char) a.value 0 table) t).getD c 0 =
      as.foldl (fun v a => if a.char ≤ c ∧ c ≤ a.last.getD a.char then a.value else v)
        (t.getD c 0) := by
  induction as generalizing t with
  | nil => rfl
  | cons a as ih =>
    rw [List.foldl_cons, List.foldl_cons,
      ih _ (by rw [write_range_length]; exact hc)]
    congr 1
    rw [write_range_getD _ _ _ 0 c t hc]
    simp

theorem foldl_covering_eq_last (as : List Assignment) (d : Int) (c : Nat) :
    as.foldl (fun v a => if a.char ≤ c ∧ c ≤ a.last.getD a.char then a.value else v) d =
      last_covering as d c := by
  induction as using List.reverseRecOn with
  | nil => rfl
  | append_singleton as a ih =>
    rw [List.foldl_append, List.foldl_cons, List.foldl_nil]
    have hrev : (as ++ [a]).reverse = a :: as.reverse := by simp
    by_cases hcov : a.char ≤ c ∧ c ≤ a.last.getD a.char
    · rw [if_pos hcov, last_covering, hrev, List.find?_cons, decide_eq_true hcov]
    · rw [if_neg hcov, last_covering, hrev, List.find?_cons, decide_eq_false hcov, ih,
        last_covering]

/-- C7: the Dense Table Builder produces a table of length `MAX_UNICODE`
(`0x110000`), and each code point below `MAX_UNICODE` holds the value of the
last input assignment whose inclusive range `[char, last]` contains it (with
`last` defaulting to `char` when omitted), or the default value when no
assignment covers it. -/
theorem read_table_last_write_wins (as : List Assignment) (d : Int) (c : Nat)
    (hc : c < MAX_UNICODE) :
    (read_table as d).length = MAX_UNICODE ∧
    (read_table as d).getD c 0 = last_covering as d c := by
  refine ⟨read_table_length as d, ?_⟩
  rw [read_table, foldl_write_getD as _ c (by rw [List.length_replicate]; exact hc)]
  rw [List.getD_eq_getElem _ _ (by rw [List.length_replicate]; exact hc),
    List.getElem_replicate, foldl_covering_eq_last]

/-- Witness for C7 at a concrete input. -/
theorem read_table_last_write_wins_witness :
    1 < MAX_UNICODE ∧
    ((read_table [⟨0, some 2, 5⟩, ⟨1, none, 9⟩] 7).length = MAX_UNICODE ∧
      (read_table [⟨0, some 2, 5⟩, ⟨1, none, 9⟩] 7).getD 1 0 =
        last_covering [⟨0, some 2, 5⟩, ⟨1, none, 9⟩] 7 1) :=
  ⟨by decide, read_table_last_write_wins [⟨0, some 2, 5⟩, ⟨1, none, 9⟩] 7 1 (by decide)⟩

theorem getD_append_left {l₁ l₂ : List Int} {n : Nat} (h : n < l₁.length) :
    (l₁ ++ l₂).getD n 0 = l₁.getD n 0 := by
  induction l₁ generalizing n with
  | nil => simp at h
  | cons x xs ih =>
    cases n with
    | zero => simp
    | succ n =>
      rw [List.cons_append, List.getD_cons_succ, List.getD_cons_succ]
      exact ih (by simpa using h)

theorem getD_append_right_self (l₁ l₂ : List Int) (k : Nat) :
    (l₁ ++ l₂).getD (l₁.length + k) 0 = l₂.getD k 0 := by
  induction l₁ with
  | nil => simp
  | cons x xs ih =>
    have harith : (x :: xs).length + k = (xs.length + k) + 1 := by simp; omega
    rw [harith, List.cons_append, List.getD_cons_succ]
    exact ih

theorem flatten_length_uniform (B : Nat) (L : List (List Int)) (h : ∀ s ∈ L, s.length = B) :
    L.flatten.length = B * L.length := by
  induction L with
  | nil => simp
  | cons s L ih =>
    have hs : s.length = B := h s (List.mem_cons_self s L)
    have hL : ∀ u ∈ L, u.length = B := fun u hu => h u (List.mem_cons_of_mem s hu)
    simp only [List.flatten_cons, List.length_append, ih hL, hs, List.length_cons]
    ring

theorem flatten_getD_uniform (B : Nat) (L : List (List Int)) (h : ∀ s ∈ L, s.length = B)
    {p r : Nat} (hp : p < L.length) (hr : r < B) :
    L.flatten.getD (p * B + r) 0 = (L.getD p []).getD r 0 := by
  induction L generalizing p with
  | nil => simp at hp
  | cons s L ih =>
    have hs : s.length = B := h s (List.mem_cons_self s L)
    have hL : ∀ u ∈ L, u.length = B := fun u hu => h u (List.mem_cons_of_mem s hu)
    cases p with
    | zero =>
      rw [List.flatten_cons, Nat.zero_mul, Nat.zero_add, List.getD_cons_zero]
      exact getD_append_left (by rw [hs]; exact hr)
    | succ p =>
      have hp' : p < L.length := by simpa using hp
      rw [List.flatten_cons, List.getD_cons_succ,
        show (p + 1) * B + r = s.length + (p * B + r) by rw [hs]; ring,
        getD_append_right_self]
      exact ih hL hp'

theorem chunksOf_nil (B : Nat) : chunksOf B [] = [] := by
  rw [chunksOf]
  simp

theorem chunksOf_cons {B : Nat} (hB : 0 < B) (x : Int) (rest : List Int) :
    chunksOf B (x :: rest) = (x :: rest).take B :: chunksOf B ((x :: rest).drop B) := by
  have hB0 : B ≠ 0 := by omega
  rw [chunksOf]
  simp [hB0]

theorem chunksOf_length_of_mod {B : Nat} (hB : 0 < B) (t : List Int)
    (hmod : t.length % B = 0) : (chunksOf B t).length = t.length / B := by
  suffices h : ∀ n (t : List Int), t.length = n → t.length % B = 0 →
      (chunksOf B t).length = t.length / B from h t.length t rfl hmod
  intro n
  induction n using Nat.strong_induction_on with
  | _ n ih =>
    intro t hlen hmod
    rcases t with _ | ⟨x, rest⟩
    · simp [chunksOf_nil]
    · have hpos : 0 < (x :: rest).length := by simp
      have hdvd : B ∣ (x :: rest).length := Nat.dvd_of_mod_eq_zero hmod
      have hBle : B ≤ (x :: rest).length := Nat.le_of_dvd hpos hdvd
      have hdrop_len : ((x :: rest).drop B).length = (x :: rest).length - B := by simp
      have hdropmod : ((x :: rest).drop B).length % B = 0 := by
        rw [hdrop_len]
        exact Nat.mod_eq_zero_of_dvd (Nat.dvd_sub' hdvd dvd_rfl)
      have hrec := ih (((x :: rest).drop B).length) (by rw [hdrop_len]; omega)
        ((x :: rest).drop B) rfl hdropmod
      rw [chunksOf_cons hB, List.length_cons, hrec, hdrop_len]
      rcases hdvd with ⟨k, hk⟩
      rcases k with _ | k₀
      · omega
      · rw [hk, Nat.mul_succ, Nat.add_sub_cancel, Nat.mul_div_cancel_left k₀ hB,
          Nat.mul_add_div hB, Nat.div_self hB]

theorem chunksOf_mem_length {B : Nat} (hB : 0 < B) (t : List Int)
    (hmod : t.length % B = 0) : ∀ c ∈ chunksOf B t, c.length = B := by
  suffices h : ∀ n (t : List Int), t.length = n → t.length % B = 0 →
      ∀ c ∈ chunksOf B t, c.length = B from h t.length t rfl hmod
  intro n
  induction n using Nat.strong_induction_on with
  | _ n ih =>
    intro t hlen hmod c hc
    rcases t with _ | ⟨x, rest⟩
    · rw [chunksOf_nil] at hc
      cases hc
    · have hpos : 0 < (x :: rest).length := by simp
      have hdvd : B ∣ (x :: rest).length := Nat.dvd_of_mod_eq_zero hmod
      have hBle : B ≤ (x :: rest).length := Nat.le_of_dvd hpos hdvd
      have hdrop_len : ((x :: rest).drop B).length = (x :: rest).length - B := by simp
      have hdropmod : ((x :: rest).drop B).length % B = 0 := by
        rw [hdrop_len]
        exact Nat.mod_eq_zero_of_dvd (Nat.dvd_sub' hdvd dvd_rfl)
      rw [chunksOf_cons hB] at hc
      rcases List.mem_cons.mp hc with rfl | hc'
      · rw [List.length_take]
        omega
      · exact ih (((x :: rest).drop B).length) (by rw [hdrop_len]; omega)
          ((x :: rest).drop B) rfl hdropmod c hc'

theorem chunksOf_getD {B : Nat} (hB : 0 < B) (t : List Int) {j : Nat}
    (hj : j < (chunksOf B t).length) : (chunksOf B t).getD j [] = (t.drop (j * B)).take B := by
  suffices h : ∀ n (t : List Int), t.length = n → ∀ j, j < (chunksOf B t).length →
      (chunksOf B t).getD j [] = (t.drop (j * B)).take B from h t.length t rfl j hj
  intro n
  induction n using Nat.strong_induction_on with
  | _ n ih =>
    intro t hlen j hj
    rcases t with _ | ⟨x, rest⟩
    · rw [chunksOf_nil] at hj
      simp at hj
    · rw [chunksOf_cons hB] at hj ⊢
      cases j with
      | zero => simp
      | succ j =>
        rw [List.getD_cons_succ]
        have hj' : j < (chunksOf B ((x :: rest).drop B)).length := by simpa using hj
        have hdrop_len : ((x :: rest).drop B).length = (x :: rest).length - B := by simp
        rw [ih (((x :: rest).drop B).length)
          (by rw [hdrop_len]; have hpos : 0 < (x :: rest).length := (by simp); omega)
          ((x :: rest).drop B) rfl j hj']
        rw [List.drop_drop]
        congr 2
        rw [Nat.succ_mul]
        omega

theorem compress_aux_nil (B : Nat) (blocks : List (List Int × Nat)) (stage1 : List Nat)
    (stage2 : List Int) : compress_aux B blocks stage1 stage2 [] = (stage1, stage2) := by
  rw [compress_aux]
  simp

theorem compress_aux_cons_found {B : Nat} (hB0 : B ≠ 0) (blocks : List (List Int × Nat))
    (stage1 : List Nat) (stage2 : List Int) (x : Int) (rest : List Int) (start : Nat)
    (hfound : dictGet blocks ((x :: rest).take B) = some start) :
    compress_aux B blocks stage1 stage2 (x :: rest) =
      compress_aux B blocks (stage1 ++ [start]) stage2 ((x :: rest).drop B) := by
  rw [compress_aux, if_neg (by simp [hB0]), hfound]

theorem compress_aux_cons_new {B : Nat} (hB0 : B ≠ 0) (blocks : List (List Int × Nat))
    (stage1 : List Nat) (stage2 : List Int) (x : Int) (rest : List Int)
    (hnew : dictGet blocks ((x :: rest).take B) = none) :
    compress_aux B blocks stage1 stage2 (x :: rest) =
      compress_aux B (blocks ++ [((x :: rest).take B, stage2.length / B)])
        (stage1 ++ [stage2.length / B]) (stage2 ++ (x :: rest).take B)
        ((x :: rest).drop B) := by
  rw [compress_aux, if_neg (by simp [hB0]), hnew]

/-- The invariant run of the `compress_table` loop: starting from a block
dictionary holding the distinct blocks `seen` (numbered in first-seen order)
and a stage-2 equal to their concatenation, the loop appends the first-seen
id stream of the remaining chunks to stage-1 and extends stage-2 with the
newly seen blocks. -/
theorem compress_aux_eq {B : Nat} (hB : 0 < B) (rest : List Int)
    (seen : List (List Int)) (stage1 : List Nat) (hseen : ∀ s ∈ seen, s.length = B)
    (hmod : rest.length % B = 0) :
    compress_aux B (withIds seen 0) stage1 seen.flatten rest =
      (stage1 ++ specIndex seen (chunksOf B rest),
        (addDistinct seen (chunksOf B rest)).flatten) := by
  suffices h : ∀ n (rest : List Int), rest.length = n → ∀ seen stage1,
      (∀ s ∈ seen, s.length = B) → rest.length % B = 0 →
      compress_aux B (withIds seen 0) stage1 seen.flatten rest =
        (stage1 ++ specIndex seen (chunksOf B rest),
          (addDistinct seen (chunksOf B rest)).flatten) from
    h rest.length rest rfl seen stage1 hseen hmod
  intro n
  induction n using Nat.strong_induction_on with
  | _ n ih =>
    intro rest hlen seen stage1 hseen hmod
    rcases rest with _ | ⟨x, rest'⟩
    · rw [compress_aux_nil, chunksOf_nil, specIndex, addDistinct]
      simp
    · have hB0 : B ≠ 0 := by omega
      have hpos : 0 < (x :: rest').length := by simp
      have hdvd : B ∣ (x :: rest').length := Nat.dvd_of_mod_eq_zero hmod
      have hBle : B ≤ (x :: rest').length := Nat.le_of_dvd hpos hdvd
      have hblock_len : ((x :: rest').take B).length = B := by
        rw [List.length_take]
        omega
      have hdrop_len : ((x :: rest').drop B).length = (x :: rest').length - B := by simp
      have hdropmod : ((x :: rest').drop B).length % B = 0 := by
        rw [hdrop_len]
        exact Nat.mod_eq_zero_of_dvd (Nat.dvd_sub' hdvd dvd_rfl)
      have hmeasure : ((x :: rest').drop B).length < n := by rw [hdrop_len]; omega
      have hchunks : chunksOf B (x :: rest') =
          (x :: rest').take B :: chunksOf B ((x :: rest').drop B) := chunksOf_cons hB x rest'
      by_cases hbin : (x :: rest').take B ∈ seen
      · have hfound : dictGet (withIds seen 0) ((x :: rest').take B) =
            some (posOf ((x :: rest').take B) seen) := by
          rw [dictGet_withIds, if_pos hbin, Nat.zero_add]
        rw [compress_aux_cons_found hB0 _ _ _ _ _ _ hfound,
          ih (((x :: rest').drop B).length) hmeasure _ rfl seen _ hseen hdropmod,
          hchunks, specIndex, if_pos hbin, addDistinct, if_pos hbin]
        simp
      · have hnew : dictGet (withIds seen 0) ((x :: rest').take B) = none := by
          rw [dictGet_withIds, if_neg hbin]
        have hstart : seen.flatten.length / B = seen.length := by
          rw [flatten_length_uniform B seen hseen]
          exact Nat.mul_div_cancel_left seen.length hB
        have hseen' : ∀ s ∈ seen ++ [(x :: rest').take B], s.length = B := by
          intro s hs
          rcases List.mem_append.mp hs with hs | hs
          · exact hseen s hs
          · rw [List.mem_singleton.mp hs]
            exact hblock_len
        have hblocks : withIds seen 0 ++ [((x :: rest').take B, seen.flatten.length / B)] =
            withIds (seen ++ [(x :: rest').take B]) 0 := by
          rw [hstart, withIds_append]
          simp [withIds]
        have hstage2 : seen.flatten ++ (x :: rest').take B =
            (seen ++ [(x :: rest').take B]).flatten := by
          simp
        rw [compress_aux_cons_new hB0 _ _ _ _ _ hnew, hblocks, hstart, hstage2,
          ih (((x :: rest').drop B).length) hmeasure _ rfl (seen ++ [(x :: rest').take B]) _
            hseen' hdropmod,
          hchunks, specIndex, if_neg hbin, addDistinct, if_neg hbin]
        simp

/-- The fully reduced form of `compress_table` on inputs whose length is an
exact multiple of the block size: stage-1 is the first-seen id stream of the
chunks and stage-2 is the concatenation of the distinct chunks in
first-occurrence order. -/
theorem compress_table_eq (t : List Int) {B : Nat} (hB : 0 < B)
    (hmod : t.length % B = 0) :
    compress_table t B =
      (specIndex [] (chunksOf B t), (addDistinct [] (chunksOf B t)).flatten) := by
  have h := compress_aux_eq hB t [] [] (by intro s hs; cases hs) hmod
  simpa [compress_table, withIds] using h

theorem getD_take {l : List Int} {n k : Nat} (hk : k < n) :
    (l.take n).getD k 0 = l.getD k 0 := by
  induction l generalizing n k with
  | nil => simp
  | cons x xs ih =>
    cases n with
    | zero => omega
    | succ n =>
      cases k with
      | zero => simp
      | succ k =>
        rw [List.take_succ_cons, List.getD_cons_succ, List.getD_cons_succ]
        exact ih (by omega)

theorem getD_drop (l : List Int) (m k : Nat) : (l.drop m).getD k 0 = l.getD (m + k) 0 := by
  induction l generalizing m with
  | nil => simp
  | cons x xs ih =>
    cases m with
    | zero => simp
    | succ m =>
      rw [List.drop_succ_cons, show m + 1 + k = (m + k) + 1 by omega, List.getD_cons_succ]
      exact ih m

theorem length_addDistinct_eq_dedup {α : Type} [DecidableEq α] (l : List α) :
    (addDistinct [] l).length = l.dedup.length := by
  have h₁ : (addDistinct [] l).Nodup := addDistinct_nodup List.nodup_nil l
  have h₂ : l.dedup.Nodup := l.nodup_dedup
  have hfin : (addDistinct [] l).toFinset = l.dedup.toFinset := by
    ext x
    simp only [List.mem_toFinset, mem_addDistinct, List.mem_dedup]
    simp
  rw [← List.toFinset_card_of_nodup h₁, hfin, List.toFinset_card_of_nodup h₂]

/-- C1: round trip of the two-stage compression.  For an input whose length
is an exact multiple of the block size `B` and any index `c` into it,
`stage2[stage1[c / B] * B + (c % B)]` recovers the original value at `c`. -/
theorem compress_table_round_trip (t : List Int) (B : Nat) (hB : 0 < B)
    (hmod : t.length % B = 0) (c : Nat) (hc : c < t.length) :
    (compress_table t B).2.getD ((compress_table t B).1.getD (c / B) 0 * B + c % B) 0 =
      t.getD c 0 := by
  have hcomp := compress_table_eq t hB hmod
  set chunks := chunksOf B t with hchunks
  set D := addDistinct [] chunks with hD
  have hchlen : chunks.length = t.length / B := chunksOf_length_of_mod hB t hmod
  have hchmem : ∀ s ∈ chunks, s.length = B := chunksOf_mem_length hB t hmod
  have hDlen : ∀ s ∈ D, s.length = B := by
    intro s hs
    rcases (mem_addDistinct [] chunks s).mp hs with h | h
    · cases h
    · exact hchmem s h
  have hjB : c / B < chunks.length := by
    rw [hchlen]
    exact Nat.div_lt_div_of_lt_of_dvd (Nat.dvd_of_mod_eq_zero hmod) hc
  have hchunk_mem : chunks.getD (c / B) [] ∈ D := by
    rw [hD, mem_addDistinct]
    exact Or.inr (getD_mem hjB [])
  have hpD : posOf (chunks.getD (c / B) []) D < D.length := posOf_lt_length hchunk_mem
  have hrB : c % B < B := Nat.mod_lt c hB
  rw [hcomp]
  show D.flatten.getD ((specIndex [] chunks).getD (c / B) 0 * B + c % B) 0 = t.getD c 0
  rw [specIndex_getD [] hjB ([] : List Int)]
  rw [flatten_getD_uniform B D hDlen hpD hrB, posOf_getD hchunk_mem]
  rw [chunksOf_getD hB t hjB]
  rw [getD_take hrB, getD_drop]
  congr 1
  rw [Nat.mul_comm]
  exact Nat.div_add_mod c B

/-- Witness for C1 at a concrete input. -/
theorem compress_table_round_trip_witness :
    0 < 2 ∧ ([0, 0, 1, 2] : List Int).length % 2 = 0 ∧ 3 < ([0, 0, 1, 2] : List Int).length ∧
    (compress_table [0, 0, 1, 2] 2).2.getD
        ((compress_table [0, 0, 1, 2] 2).1.getD (3 / 2) 0 * 2 + 3 % 2) 0 =
      ([0, 0, 1, 2] : List Int).getD 3 0 :=
  ⟨by decide, by decide, by decide,
    compress_table_round_trip [0, 0, 1, 2] 2 (by decide) (by decide) 3 (by decide)⟩

/-- C8: output shape of the Block Compressor on an input of length an exact
multiple of `B`: stage-1 has length `len / B`; stage-2 is the concatenation
of the distinct blocks, each appearing exactly once in first-occurrence
order, so its length is `B` times the number of distinct blocks; and every
stage-1 entry is the offset (in block units) of its chunk inside stage-2,
i.e. the rank of that chunk among the distinct blocks in first-seen order. -/
theorem compress_table_shape (t : List Int) (B : Nat) (hB : 0 < B)
    (hmod : t.length % B = 0) :
    (compress_table t B).1.length = t.length / B ∧
    (compress_table t B).2 = (addDistinct [] (chunksOf B t)).flatten ∧
    (addDistinct [] (chunksOf B t)).Nodup ∧
    (∀ b, b ∈ addDistinct [] (chunksOf B t) ↔ b ∈ chunksOf B t) ∧
    (compress_table t B).2.length = B * (chunksOf B t).dedup.length ∧
    (∀ j, j < (chunksOf B t).length →
      (compress_table t B).1.getD j 0 =
        posOf ((chunksOf B t).getD j []) (addDistinct [] (chunksOf B t))) := by
  have hcomp := compress_table_eq t hB hmod
  have hchmem : ∀ s ∈ chunksOf B t, s.length = B := chunksOf_mem_length hB t hmod
  have hDlen : ∀ s ∈ addDistinct [] (chunksOf B t), s.length = B := by
    intro s hs
    rcases (mem_addDistinct [] (chunksOf B t) s).mp hs with h | h
    · cases h
    · exact hchmem s h
  refine ⟨?_, ?_, addDistinct_nodup List.nodup_nil _, ?_, ?_, ?_⟩
  · rw [hcomp]
    show (specIndex [] (chunksOf B t)).length = t.length / B
    rw [specIndex_length, chunksOf_length_of_mod hB t hmod]
  · rw [hcomp]
  · intro b
    rw [mem_addDistinct]
    simp
  · rw [hcomp]
    show (addDistinct [] (chunksOf B t)).flatten.length = B * (chunksOf B t).dedup.length
    rw [flatten_length_uniform B _ hDlen, length_addDistinct_eq_dedup]
  · intro j hj
    rw [hcomp]
    exact specIndex_getD [] hj []

/-- Witness for C8 at a concrete input. -/
theorem compress_table_shape_witness :
    0 < 2 ∧ ([0, 0, 1, 2] : List Int).length % 2 = 0 ∧
    ((compress_table [0, 0, 1, 2] 2).1.length = ([0, 0, 1, 2] : List Int).length / 2 ∧
      (compress_table [0, 0, 1, 2] 2).2 = (addDistinct [] (chunksOf 2 [0, 0, 1, 2])).flatten ∧
      (addDistinct [] (chunksOf 2 [0, 0, 1, 2])).Nodup ∧
      (∀ b, b ∈ addDistinct [] (chunksOf 2 [0, 0, 1, 2]) ↔ b ∈ chunksOf 2 [0, 0, 1, 2]) ∧
      (compress_table [0, 0, 1, 2] 2).2.length = 2 * (chunksOf 2 [0, 0, 1, 2]).dedup.length ∧
      (∀ j, j < (chunksOf 2 [0, 0, 1, 2]).length →
        (compress_table [0, 0, 1, 2] 2).1.getD j 0 =
          posOf ((chunksOf 2 [0, 0, 1, 2]).getD j []) (addDistinct [] (chunksOf 2 [0, 0, 1, 2])))) :=
  ⟨by decide, by decide, compress_table_shape [0, 0, 1, 2] 2 (by decide) (by decide)⟩

/-- C9: the concrete example scenario.  Combining `[5,5,5,7]` and `[1,1,2,1]`
yields the record table `{(5,1) ↦ 0, (5,2) ↦ 1, (7,1) ↦ 2}` and the index
array `[0, 0, 1, 2]`; compressing that index array with block size 2 yields
stage-1 `[0, 1]` and stage-2 `[0, 0, 1, 2]` (two distinct blocks). -/
theorem example_scenario :
    combine_tables [[5, 5, 5, 7], [1, 1, 2, 1]] =
      ([0, 0, 1, 2], [([5, 1], 0), ([5, 2], 1), ([7, 1], 2)]) ∧
    compress_table [0, 0, 1, 2] 2 = ([0, 1], [0, 0, 1, 2]) := by
  constructor
  · decide
  · simp [compress_table, compress_aux, dictGet]

theorem append_singleton_split {α : Type} {l l₁ l₂ : List α} {x : α}
    (hx : x ∉ l) (heq : l ++ [x] = l₁ ++ x :: l₂) : l₁ = l ∧ l₂ = [] := by
  rcases List.eq_nil_or_concat l₂ with rfl | ⟨l₂', y, rfl⟩
  · rcases List.append_inj' heq rfl with ⟨h₁, h₂⟩
    exact ⟨h₁.symm, rfl⟩
  · have heq' : l ++ [x] = (l₁ ++ x :: l₂') ++ [y] := by
      rw [heq]
      simp
    rcases List.append_inj' heq' rfl with ⟨h₁, h₂⟩
    exact absurd (h₁ ▸ List.mem_append.mpr (Or.inr (List.mem_cons_self x l₂'))) hx

theorem append_split_of_ne {α : Type} {l l₁ l₂ : List α} {x c : α}
    (hne : x ≠ c) (heq : l ++ [c] = l₁ ++ x :: l₂) :
    ∃ l₃, l = l₁ ++ x :: l₃ ∧ l₂ = l₃ ++ [c] := by
  rcases List.eq_nil_or_concat l₂ with rfl | ⟨l₂', y, rfl⟩
  · rcases List.append_inj' heq rfl with ⟨h₁, h₂⟩
    have hcx : c = x := by simpa using h₂
    exact absurd hcx.symm hne
  · have heq' : l ++ [c] = (l₁ ++ x :: l₂') ++ [y] := by
      rw [heq]
      simp
    rcases List.append_inj' heq' rfl with ⟨h₁, h₂⟩
    have hy : c = y := by simpa using h₂
    exact ⟨l₂', h₁, by rw [hy, List.concat_eq_append]⟩

theorem opt_loop_cons_some (rl rs : Nat) (tb : List Int) (c : Nat) (rest : List Nat)
    (m : Nat) (best : Option Nat) (size : Nat) (h : total_size rl rs tb c = some size) :
    opt_loop rl rs tb (c :: rest) (m, best) =
      if size < m then opt_loop rl rs tb rest (size, some c)
      else opt_loop rl rs tb rest (m, best) := by
  rw [opt_loop, h]

/-- The invariant run of the optimizer loop: starting from the best candidate
`b` (score `m`) among `processed`, the loop returns the best candidate of
`processed ++ rest` under the strict-improvement (`<`) update rule, so ties
keep the earliest-tried candidate. -/
theorem opt_loop_invariant (rl rs : Nat) (tb : List Int) :
    ∀ (rest processed : List Nat) (m : Nat) (b : Nat),
      (processed ++ rest).Nodup →
      b ∈ processed →
      total_size rl rs tb b = some m →
      (∀ c ∈ processed, ∀ sc, total_size rl rs tb c = some sc → m ≤ sc) →
      (∀ l₁ l₂, processed = l₁ ++ b :: l₂ → ∀ c ∈ l₁, ∀ sc,
        total_size rl rs tb c = some sc → m < sc) →
      (∀ c ∈ rest, ∃ s, total_size rl rs tb c = some s) →
      ∃ m₁ b₁, opt_loop rl rs tb rest (m, some b) = some (m₁, some b₁) ∧
        b₁ ∈ processed ++ rest ∧
        total_size rl rs tb b₁ = some m₁ ∧
        (∀ c ∈ processed ++ rest, ∀ sc, total_size rl rs tb c = some sc → m₁ ≤ sc) ∧
        (∀ l₁ l₂, processed ++ rest = l₁ ++ b₁ :: l₂ → ∀ c ∈ l₁, ∀ sc,
          total_size rl rs tb c = some sc → m₁ < sc) := by
  intro rest
  induction rest with
  | nil =>
    intro processed m b hnd hb ht hmin hstrict hall
    refine ⟨m, b, by rw [opt_loop], by simpa using hb, ht, by simpa using hmin, ?_⟩
    intro l₁ l₂ heq
    exact hstrict l₁ l₂ (by simpa using heq)
  | cons c rest ih =>
    intro processed m b hnd hb ht hmin hstrict hall
    rcases hall c (List.mem_cons_self c rest) with ⟨sc, hsc⟩
    have hall' : ∀ d ∈ rest, ∃ s, total_size rl rs tb d = some s :=
      fun d hd => hall d (List.mem_cons_of_mem c hd)
    have hnd' : ((processed ++ [c]) ++ rest).Nodup := by
      rw [List.append_assoc]
      simpa using hnd
    have hcnotp : c ∉ processed := by
      rcases List.nodup_append.mp hnd with ⟨-, -, hdisj⟩
      intro hmem
      exact hdisj hmem (List.mem_cons_self c rest)
    have hassoc : (processed ++ [c]) ++ rest = processed ++ c :: rest := by simp
    rw [opt_loop_cons_some rl rs tb c rest m (some b) sc hsc]
    by_cases hlt : sc < m
    · rw [if_pos hlt]
      have hmin' : ∀ d ∈ processed ++ [c], ∀ sd, total_size rl rs tb d = some sd → sc ≤ sd := by
        intro d hd sd hsd
        rcases List.mem_append.mp hd with hd | hd
        · have := hmin d hd sd hsd
          omega
        · rw [List.mem_singleton.mp hd] at hsd
          rw [hsd] at hsc
          have hscs : sd = sc := by injection hsc
          omega
      have hstrict' : ∀ l₁ l₂, processed ++ [c] = l₁ ++ c :: l₂ → ∀ d ∈ l₁, ∀ sd,
          total_size rl rs tb d = some sd → sc < sd := by
        intro l₁ l₂ heq d hd sd hsd
        rcases append_singleton_split hcnotp heq with ⟨rfl, rfl⟩
        have := hmin d hd sd hsd
        omega
      have hres := ih (processed ++ [c]) sc c hnd' (by simp) hsc hmin' hstrict' hall'
      rw [hassoc] at hres
      exact hres
    · rw [if_neg hlt]
      have hmin' : ∀ d ∈ processed ++ [c], ∀ sd, total_size rl rs tb d = some sd → m ≤ sd := by
        intro d hd sd hsd
        rcases List.mem_append.mp hd with hd | hd
        · exact hmin d hd sd hsd
        · rw [List.mem_singleton.mp hd] at hsd
          rw [hsd] at hsc
          have hscs : sd = sc := by injection hsc
          omega
      have hstrict' : ∀ l₁ l₂, processed ++ [c] = l₁ ++ b :: l₂ → ∀ d ∈ l₁, ∀ sd,
          total_size rl rs tb d = some sd → m < sd := by
        intro l₁ l₂ heq d hd sd hsd
        have hbc : b ≠ c := fun h => hcnotp (h ▸ hb)
        rcases append_split_of_ne hbc heq with ⟨l₃, hpe, -⟩
        exact hstrict l₁ l₃ hpe d hd sd hsd
      have hres := ih (processed ++ [c]) m b hnd' (List.mem_append.mpr (Or.inl hb)) ht
        hmin' hstrict' hall'
      rw [hassoc] at hres
      exact hres

/-- C6: the Block-Size Optimizer evaluates exactly the candidate block sizes
`[32, 64, 128, 256, 512]` (`2^5 … 2^9`) in increasing order and returns a
candidate whose total size (record bytes plus stage-1 bytes plus stage-2
bytes, each stage's width resolved independently) no other candidate beats
strictly; on ties the earliest-tried candidate is kept (the loop updates
only on a strict `<`). -/
theorem find_block_size_optimal (rl rs : Nat) (tb : List Int)
    (hall : ∀ c ∈ candidate_block_sizes,
      (total_size rl rs tb c).getD 9223372036854775807 < 9223372036854775807) :
    candidate_block_sizes = [32, 64, 128, 256, 512] ∧
    ∃ b ms, find_block_size rl rs tb = some (b, ms) ∧
      b ∈ candidate_block_sizes ∧
      total_size rl rs tb b = some ms ∧
      (∀ c ∈ candidate_block_sizes, ∀ sc, total_size rl rs tb c = some sc → ms ≤ sc) ∧
      (∀ l₁ l₂, candidate_block_sizes = l₁ ++ b :: l₂ →
        ∀ c ∈ l₁, ∀ sc, total_size rl rs tb c = some sc → ms < sc) := by
  have hcands : candidate_block_sizes = [32, 64, 128, 256, 512] := by decide
  have hsome : ∀ c ∈ candidate_block_sizes, ∃ s,
      total_size rl rs tb c = some s ∧ s < 9223372036854775807 := by
    intro c hc
    have h := hall c hc
    rcases hopt : total_size rl rs tb c with - | s
    · rw [hopt] at h
      simp at h
    · rw [hopt] at h
      exact ⟨s, rfl, by simpa using h⟩
  refine ⟨hcands, ?_⟩
  rcases hsome 32 (by rw [hcands]; simp) with ⟨s₁, hs₁, hlt₁⟩
  have hstep : opt_loop rl rs tb candidate_block_sizes (9223372036854775807, none) =
      opt_loop rl rs tb [64, 128, 256, 512] (s₁, some 32) := by
    rw [hcands, opt_loop_cons_some rl rs tb 32 _ _ _ s₁ hs₁, if_pos hlt₁]
  have hrest : ∀ c ∈ [64, 128, 256, 512], ∃ s, total_size rl rs tb c = some s := by
    intro c hc
    have hc' : c ∈ candidate_block_sizes := by
      rw [hcands]
      simp at hc ⊢
      tauto
    rcases hsome c hc' with ⟨s, hs, -⟩
    exact ⟨s, hs⟩
  have hinv := opt_loop_invariant rl rs tb [64, 128, 256, 512] [32] s₁ 32
    (by decide) (by simp) hs₁
    (by
      intro c hc sc hsc
      rw [List.mem_singleton.mp hc] at hsc
      rw [hsc] at hs₁
      have hscs : sc = s₁ := by injection hs₁
      omega)
    (by
      intro l₁ l₂ heq d hd sd hsd
      have hl₁ : l₁ = [] := by
        rcases l₁ with - | ⟨u, us⟩
        · rfl
        · exfalso
          have hlen := congrArg List.length heq
          simp at hlen
      rw [hl₁] at hd
      cases hd)
    hrest
  rcases hinv with ⟨m₁, b₁, hloop, hbmem, hbt, hminall, hstrictall⟩
  refine ⟨b₁, m₁, ?_, by rw [hcands]; simpa using hbmem, hbt, ?_, ?_⟩
  · rw [find_block_size, hstep, hloop]
    rfl
  · intro c hc sc hsc
    refine hminall c ?_ sc hsc
    rw [hcands] at hc
    simpa using hc
  · intro l₁ l₂ heq c hc sc hsc
    refine hstrictall l₁ l₂ ?_ c hc sc hsc
    rw [← heq, hcands]
    rfl

/-- Witness for C6 at a concrete input. -/
theorem find_block_size_optimal_witness :
    (∀ c ∈ candidate_block_sizes,
      (total_size 1 1 [0, 1] c).getD 9223372036854775807 < 9223372036854775807) ∧
    (candidate_block_sizes = [32, 64, 128, 256, 512] ∧
      ∃ b ms, find_block_size 1 1 [0, 1] = some (b, ms) ∧
        b ∈ candidate_block_sizes ∧
        total_size 1 1 [0, 1] b = some ms ∧
        (∀ c ∈ candidate_block_sizes, ∀ sc, total_size 1 1 [0, 1] c = some sc → ms ≤ sc) ∧
        (∀ l₁ l₂, candidate_block_sizes = l₁ ++ b :: l₂ →
          ∀ c ∈ l₁, ∀ sc, total_size 1 1 [0, 1] c = some sc → ms < sc)) := by
  have hall : ∀ c ∈ candidate_block_sizes,
      (total_size 1 1 [0, 1] c).getD 9223372036854775807 < 9223372036854775807 := by
    intro c hc
    have hcands : candidate_block_sizes = [32, 64, 128, 256, 512] := by decide
    rw [hcands] at hc
    fin_cases hc <;>
      simp [total_size, compress_table, compress_aux, dictGet, get_tables_size,
        get_type_size, py_min, py_max, find_fit, limits, type_size]
  exact ⟨hall, find_block_size_optimal 1 1 [0, 1] hall⟩

theorem ldiff_two_pow_sub_one (m k : Nat) :
    Nat.ldiff m (2 ^ k - 1) = 2 ^ k * (m / 2 ^ k) := by
  apply Nat.eq_of_testBit_eq
  intro i
  have h₂ : 2 ^ k * (m / 2 ^ k) = (m >>> k) <<< k := by
    rw [Nat.shiftLeft_eq, Nat.shiftRight_eq_div_pow]
    ring
  rw [Nat.testBit_ldiff, Nat.testBit_two_pow_sub_one, h₂, Nat.testBit_shiftLeft,
    Nat.testBit_shiftRight]
  by_cases hik : i < k
  · simp [hik, Nat.not_le.mpr hik]
  · have hki : k ≤ i := Nat.not_lt.mp hik
    rw [Nat.add_sub_cancel' hki]
    simp [hik, hki]

theorem land_neg_coe (x : Int) (hx : 0 ≤ x) (k : Nat) :
    Int.land x (-((2 ^ k : Nat) : Int)) = ((2 ^ k : Nat) : Int) * (x / ((2 ^ k : Nat) : Int)) := by
  obtain ⟨m, rfl⟩ := Int.eq_ofNat_of_zero_le hx
  have hpow : 0 < 2 ^ k := Nat.two_pow_pos k
  have h₁ : -((2 ^ k : Nat) : Int) = Int.negSucc (2 ^ k - 1) := by
    rw [Int.negSucc_eq]
    omega
  rw [h₁]
  show ((Nat.ldiff m (2 ^ k - 1) : Nat) : Int) = _
  rw [ldiff_two_pow_sub_one]
  push_cast
  rfl

theorem land_neg_width {x : Int} (hx : 0 ≤ x) {w : Nat} (hw : w = 1 ∨ w = 2 ∨ w = 4) :
    Int.land x (-(w : Int)) = (w : Int) * (x / (w : Int)) := by
  rcases hw with rfl | rfl | rfl
  · have h := land_neg_coe x hx 0
    norm_num at h ⊢
    exact h
  · have h := land_neg_coe x hx 1
    norm_num at h ⊢
    exact h
  · have h := land_neg_coe x hx 2
    norm_num at h ⊢
    exact h

theorem land_step_eq {size : Int} (hsize : 0 ≤ size) {w : Nat} (hw : w = 1 ∨ w = 2 ∨ w = 4) :
    Int.land (size + (w : Int) - 1) (-(w : Int)) = roundUpTo size (w : Int) := by
  have hx : 0 ≤ size + (w : Int) - 1 := by
    rcases hw with rfl | rfl | rfl <;> (push_cast; omega)
  rw [land_neg_width hx hw, roundUpTo]

theorem roundUpTo_nonneg {size : Int} (hsize : 0 ≤ size) {w : Nat} (hw : w = 1 ∨ w = 2 ∨ w = 4) :
    0 ≤ roundUpTo size (w : Int) := by
  have hx : 0 ≤ size + (w : Int) - 1 := by
    rcases hw with rfl | rfl | rfl <;> (push_cast; omega)
  have hwpos : 0 ≤ (w : Int) := Int.natCast_nonneg w
  rw [roundUpTo]
  exact mul_nonneg hwpos (Int.ediv_nonneg hx hwpos)

theorem get_type_size_width {t : List Int} {ts : String × Nat}
    (h : get_type_size t = some ts) : ts.2 = 1 ∨ ts.2 = 2 ∨ ts.2 = 4 := by
  rcases t with - | ⟨x, xs⟩
  · simp [get_type_size] at h
  · rw [get_type_size_eq_find_fit (by simp)] at h
    simp only [find_fit] at h
    split_ifs at h <;>
      (simp only [Option.some.injEq] at h; rw [← h]; simp)

theorem foldl_field_none (records : List (List Int)) (l : List Nat) :
    l.foldl (field_step records) none = none := by
  induction l with
  | nil => rfl
  | cons i l ih =>
    rw [List.foldl_cons]
    show l.foldl (field_step records) ((none : Option Int).bind _) = none
    rw [Option.none_bind]
    exact ih

theorem foldl_spec_field_none (records : List (List Int)) (l : List Nat) :
    l.foldl (spec_field_step records) none = none := by
  induction l with
  | nil => rfl
  | cons i l ih =>
    rw [List.foldl_cons]
    show l.foldl (spec_field_step records) ((none : Option Int).bind _) = none
    rw [Option.none_bind]
    exact ih

theorem field_fold_eq (records : List (List Int)) (l : List Nat) :
    ∀ (size : Int), 0 ≤ size →
      (l.foldl (field_step records) (some size) = l.foldl (spec_field_step records) (some size)) ∧
      (∀ r, l.foldl (spec_field_step records) (some size) = some r → 0 ≤ r) := by
  induction l with
  | nil =>
    intro size hsize
    refine ⟨rfl, fun r hr => ?_⟩
    injection hr with h
    omega
  | cons i l ih =>
    intro size hsize
    rcases hty : get_type_size (column records i) with - | ts
    · have h₁ : field_step records (some size) i = none := by
        rw [field_step]
        simp [hty]
      have h₂ : spec_field_step records (some size) i = none := by
        rw [spec_field_step]
        simp [hty]
      rw [List.foldl_cons, List.foldl_cons, h₁, h₂, foldl_field_none, foldl_spec_field_none]
      exact ⟨rfl, fun r hr => by cases hr⟩
    · have hwidth : ts.2 = 1 ∨ ts.2 = 2 ∨ ts.2 = 4 := get_type_size_width hty
      have hstep : field_step records (some size) i =
          some (roundUpTo size (ts.2 : Int) + (ts.2 : Int)) := by
        rw [field_step, Option.some_bind, hty]
        show some (Int.land (size + (ts.2 : Int) - 1) (-(ts.2 : Int)) + (ts.2 : Int)) = _
        rw [land_step_eq hsize hwidth]
      have hspec : spec_field_step records (some size) i =
          some (roundUpTo size (ts.2 : Int) + (ts.2 : Int)) := by
        rw [spec_field_step, Option.some_bind, hty]
        rfl
      have hnn : 0 ≤ roundUpTo size (ts.2 : Int) + (ts.2 : Int) := by
        have h₁ := roundUpTo_nonneg hsize hwidth
        have h₂ : 0 ≤ (ts.2 : Int) := Int.natCast_nonneg ts.2
        omega
      rw [List.foldl_cons, List.foldl_cons, hstep, hspec]
      exact ih _ hnn

/-- C5: the record layout of `get_record_size_struct` walks the fields in
tuple order, pads the running offset up to a multiple of each field's
resolved width before adding it, and finally pads the total up to a multiple
of the FIRST field's resolved width — it agrees with the spec-level
`spec_record_size` on every record table — and the eight tabulated test
cases of `test_record_size` hold. -/
theorem get_record_size_struct_spec :
    (∀ records : List (List Int), get_record_size_struct records = spec_record_size records) ∧
    get_record_size_struct [[3], [6], [6], [1]] = some 1 ∧
    get_record_size_struct [[300], [600], [600], [100]] = some 2 ∧
    get_record_size_struct [[25, 3], [6, 6], [34, 6], [68, 1]] = some 2 ∧
    get_record_size_struct [[300, 3], [6, 6], [340, 6], [690, 1]] = some 4 ∧
    get_record_size_struct [[3, 300], [6, 6], [6, 340], [1, 690]] = some 4 ∧
    get_record_size_struct [[300, 300], [6, 6], [6, 340], [1, 690]] = some 4 ∧
    get_record_size_struct [[3, 100000], [6, 6], [6, 123456], [1, 690]] = some 8 ∧
    get_record_size_struct [[100000, 300], [6, 6], [123456, 6], [1, 690]] = some 8 := by
  have hgen : ∀ records : List (List Int),
      get_record_size_struct records = spec_record_size records := by
    intro records
    rcases records with - | ⟨r₀, rs⟩
    · rfl
    · rw [get_record_size_struct, spec_record_size]
      have hfe := field_fold_eq (r₀ :: rs) (List.range r₀.length) 0 le_rfl
      rcases hfold : (List.range r₀.length).foldl (spec_field_step (r₀ :: rs)) (some 0)
        with - | size
      · rw [hfe.1, hfold]
        rfl
      · have hnn : 0 ≤ size := hfe.2 size hfold
        rw [hfe.1, hfold]
        rw [Option.some_bind, Option.some_bind]
        rcases hty : get_type_size (column (r₀ :: rs) 0) with - | ts
        · rfl
        · have hwidth : ts.2 = 1 ∨ ts.2 = 2 ∨ ts.2 = 4 := get_type_size_width hty
          show some (Int.land (size + (ts.2 : Int) - 1) (-(ts.2 : Int))) =
            some (roundUpTo size (ts.2 : Int))
          rw [land_step_eq hnn hwidth]
  refine ⟨hgen, ?_, ?_, ?_, ?_, ?_, ?_, ?_, ?_⟩ <;>
    · rw [hgen]
      decide

theorem withIds_snd_ge {α : Type} (l : List α) (n : Nat) :
    ∀ y ∈ withIds l n, n ≤ y.2 := by
  induction l generalizing n with
  | nil => intro y hy; cases hy
  | cons x xs ih =>
    intro y hy
    rcases List.mem_cons.mp hy with rfl | hy'
    · exact le_refl n
    · have := ih (n + 1) y hy'
      omega

theorem withIds_snd_lt {α : Type} (l : List α) (n : Nat) :
    (withIds l n).Pairwise fun x y => x.2 < y.2 := by
  induction l generalizing n with
  | nil => exact List.Pairwise.nil
  | cons x xs ih =>
    refine List.Pairwise.cons ?_ (ih (n + 1))
    intro y hy
    have := withIds_snd_ge xs (n + 1) y hy
    omega

theorem pairwise_lt_of_le_of_nodup {l : List (List Int × Nat)}
    (hp : l.Pairwise fun x y => x.2 ≤ y.2) (hnd : (l.map Prod.snd).Nodup) :
    l.Pairwise fun x y => x.2 < y.2 := by
  induction l with
  | nil => exact List.Pairwise.nil
  | cons a l ih =>
    rcases List.pairwise_cons.mp hp with ⟨ha, hp'⟩
    rw [List.map_cons, List.nodup_cons] at hnd
    rcases hnd with ⟨hane, hnd'⟩
    refine List.Pairwise.cons ?_ (ih hp' hnd')
    intro b hb
    have h₁ := ha b hb
    have h₂ : a.2 ≠ b.2 := fun he => hane (he ▸ List.mem_map_of_mem Prod.snd hb)
    omega

/-- Sorting any permutation of a record list that is strictly increasing in
its ids recovers that list: the emission order of `print_records` does not
depend on the dictionary iteration order. -/
theorem sorted_perm_records_eq {records l : List (List Int × Nat)}
    (hrec : records.Pairwise fun x y => x.2 < y.2) (hperm : l.Perm records) :
    print_records_order l = records := by
  haveI : IsAntisymm (List Int × Nat) (fun x y => x.2 < y.2) :=
    ⟨fun a b h₁ h₂ => absurd h₂ (Nat.lt_asymm h₁)⟩
  have htrans : ∀ a b c : List Int × Nat,
      (fun x y : List Int × Nat => decide (x.2 ≤ y.2)) a b →
      (fun x y : List Int × Nat => decide (x.2 ≤ y.2)) b c →
      (fun x y : List Int × Nat => decide (x.2 ≤ y.2)) a c := by
    intro a b c h₁ h₂
    simp at h₁ h₂ ⊢
    omega
  have htotal : ∀ a b : List Int × Nat,
      ((fun x y : List Int × Nat => decide (x.2 ≤ y.2)) a b ||
        (fun x y : List Int × Nat => decide (x.2 ≤ y.2)) b a) := by
    intro a b
    simp
    omega
  have hsorted := List.sorted_mergeSort htrans htotal l
  have hperm₂ : (l.mergeSort fun x y => x.2 ≤ y.2).Perm records :=
    (List.mergeSort_perm l _).trans hperm
  have hndrec : (records.map Prod.snd).Nodup := by
    have h₁ : (records.map Prod.snd).Pairwise (· < ·) := List.pairwise_map.mpr hrec
    exact h₁.imp Nat.ne_of_lt
  have hnd₂ : ((l.mergeSort fun x y => x.2 ≤ y.2).map Prod.snd).Nodup :=
    ((hperm₂.map Prod.snd).nodup_iff).mpr hndrec
  have hle : (l.mergeSort fun x y => x.2 ≤ y.2).Pairwise fun x y => x.2 ≤ y.2 :=
    hsorted.imp fun h => by simpa using h
  have hlt := pairwise_lt_of_le_of_nodup hle hnd₂
  exact List.eq_of_perm_of_sorted hperm₂ hlt hrec

/-- C10: determinism of the pipeline.  The record table produced by
`combine_tables` is strictly increasing in its first-seen ids, so sorting the
dictionary items by id — `print_records`'s emission step — yields the same
list for every iteration order of the dictionary (modelled as an arbitrary
permutation of the items): consumer-visible numbering equals first-seen
order, and two runs on identical inputs emit identical output (the remaining
stages are pure functions of their inputs). -/
theorem pipeline_deterministic (tables : List (List Int)) (l : List (List Int × Nat))
    (hl : l.Perm (combine_tables tables).2) :
    print_records_order l = (combine_tables tables).2 ∧
    print_records_order (combine_tables tables).2 = (combine_tables tables).2 := by
  have hrec : (combine_tables tables).2.Pairwise fun x y => x.2 < y.2 := by
    rw [combine_tables_eq]
    exact withIds_snd_lt _ 0
  exact ⟨sorted_perm_records_eq hrec hl, sorted_perm_records_eq hrec (List.Perm.refl _)⟩

/-- Witness for C10 at a concrete input: a nontrivial iteration order of the
record dictionary of the example scenario. -/
theorem pipeline_deterministic_witness :
    ([([5, 2], 1), ([7, 1], 2), ([5, 1], 0)] : List (List Int × Nat)).Perm
        (combine_tables [[5, 5, 5, 7], [1, 1, 2, 1]]).2 ∧
    (print_records_order [([5, 2], 1), ([7, 1], 2), ([5, 1], 0)] =
        (combine_tables [[5, 5, 5, 7], [1, 1, 2, 1]]).2 ∧
      print_records_order (combine_tables [[5, 5, 5, 7], [1, 1, 2, 1]]).2 =
        (combine_tables [[5, 5, 5, 7], [1, 1, 2, 1]]).2) :=
  ⟨by decide, pipeline_deterministic [[5, 5, 5, 7], [1, 1, 2, 1]]
    [([5, 2], 1), ([7, 1], 2), ([5, 1], 0)] (by decide)⟩
